import Mathlib

/-!
Verification development for the cold-email generator
(`SeachEmployeeFromMyCompany.py`).

Python text is modelled as `List Char`.  Each stage of `clean_text` is
embedded as an executable function mirroring the corresponding `re.sub`
call; external collaborators (the chromadb collection, the hosted
language model, the JSON parsing of the model response, Python's `str`
rendering) are modelled from the spec's black-box contracts and appear
as explicit parameters.
-/

/-- Python `\s` on the ASCII range: the whitespace class used by
`re.sub(r'\s{2,}', ' ', ...)`, `str.strip()` and `str.split()`.
(Non-ASCII whitespace cannot reach those stages: the character filter
`[^a-zA-Z0-9 ]` runs first and leaves `' '` as the only whitespace.) -/
def pyWs (c : Char) : Bool :=
  c = ' ' || c = '\t' || c = '\n' || c = '\x0d' || c = '\x0c' || c = '\x0b'

/-- The character class kept by `re.sub(r'[^a-zA-Z0-9 ]', '', text)`. -/
def isAllowed (c : Char) : Bool :=
  ('a' ≤ c && c ≤ 'z') || ('A' ≤ c && c ≤ 'Z') || ('0' ≤ c && c ≤ '9') || c = ' '

/-- The character class of the URL body in
`re.sub(r'http[s]?://(?:[a-zA-Z]|[0-9]|[$-_@.&+]|[!*\\(\\),]|(?:%[0-9a-fA-F][0-9a-fA-F]))+', '', text)`:
letters, digits, the range `$`..`_` (which subsumes `@ . & +` and the
`%HH` alternative), and `! * \ ( ) ,`. -/
def urlChar (c : Char) : Bool :=
  ('a' ≤ c && c ≤ 'z') || ('A' ≤ c && c ≤ 'Z') || ('0' ≤ c && c ≤ '9') ||
  ('$' ≤ c && c ≤ '_') ||
  c = '@' || c = '.' || c = '&' || c = '+' ||
  c = '!' || c = '*' || c = '\\' || c = '(' || c = ')' || c = ','

/-- `re.sub(r'<[^>]*?>', '', text)`: each `<` that is followed by a later
`>` is deleted together with everything up to and including the first
such `>`; a `<` with no closing `>` is kept. -/
def removeTags : List Char → List Char
  | [] => []
  | c :: rest =>
    if c = '<' then
      if rest.contains '>' then
        removeTags ((rest.dropWhile (fun d => !(d = '>'))).tail)
      else c :: removeTags rest
    else c :: removeTags rest
termination_by l => l.length
decreasing_by
  all_goals simp_wf
  all_goals
    first
    | omega
    | (have hdw : ∀ (p : Char → Bool) (m : List Char), (m.dropWhile p).length ≤ m.length := by
         intro p m
         induction m with
         | nil => simp
         | cons a t ih =>
           rw [List.dropWhile_cons]
           split
           · exact Nat.le_succ_of_le ih
           · simp
       have h1 := hdw (fun d => !(d = '>')) rest
       omega)

/-- The scheme part of the URL regex: when the text starts with
`https://` (tried first, as `[s]?` is greedy) or `http://`, the
remainder after the scheme; otherwise no match can start here. -/
def urlSuffix (l : List Char) : Option (List Char) :=
  if l.take 8 = ['h', 't', 't', 'p', 's', ':', '/', '/'] then some (l.drop 8)
  else if l.take 7 = ['h', 't', 't', 'p', ':', '/', '/'] then some (l.drop 7)
  else none

/-- The URL regex of `clean_text`: a match is `http://` or `https://`
followed by a non-empty greedy run of `urlChar`s; matches are removed
left to right, non-overlapping.  When `http(s)://` is present but no
body character follows, the regex does not match at that position and
scanning resumes one character further (the leading character is kept
and the scan continues on the tail). -/
def removeUrls : List Char → List Char
  | [] => []
  | c :: rest =>
    match h : urlSuffix (c :: rest) with
    | some r2 =>
      if (r2.takeWhile urlChar).isEmpty then c :: removeUrls rest
      else removeUrls (r2.dropWhile urlChar)
    | none => c :: removeUrls rest
termination_by l => l.length
decreasing_by
  all_goals simp_wf
  all_goals
    first
    | omega
    | (have hdw : ∀ (p : Char → Bool) (m : List Char), (m.dropWhile p).length ≤ m.length := by
         intro p m
         induction m with
         | nil => simp
         | cons a t ih =>
           rw [List.dropWhile_cons]
           split
           · exact Nat.le_succ_of_le ih
           · simp
       have hr2 : r2.length < (c :: rest).length := by
         rw [urlSuffix] at h
         by_cases h8 : (c :: rest).take 8 = ['h', 't', 't', 'p', 's', ':', '/', '/']
         · rw [if_pos h8] at h
           have hlen : ((c :: rest).take 8).length = 8 := by rw [h8]; rfl
           rw [List.length_take] at hlen
           have h2 : r2 = (c :: rest).drop 8 := by
             injection h with h3
             exact h3.symm
           rw [h2, List.length_drop]
           omega
         · rw [if_neg h8] at h
           by_cases h7 : (c :: rest).take 7 = ['h', 't', 't', 'p', ':', '/', '/']
           · rw [if_pos h7] at h
             have hlen : ((c :: rest).take 7).length = 7 := by rw [h7]; rfl
             rw [List.length_take] at hlen
             have h2 : r2 = (c :: rest).drop 7 := by
               injection h with h3
               exact h3.symm
             rw [h2, List.length_drop]
             omega
           · rw [if_neg h7] at h
             exact absurd h (by simp)
       rw [List.length_cons] at hr2
       have := hdw urlChar r2
       omega)

/-- `re.sub(r'[^a-zA-Z0-9 ]', '', text)`. -/
def filterAllowed (l : List Char) : List Char :=
  l.filter isAllowed

/-- `re.sub(r'\s{2,}', ' ', text)`: every maximal run of two or more
whitespace characters becomes a single `' '`; an isolated whitespace
character is kept unchanged. -/
def collapseWs : List Char → List Char
  | [] => []
  | [c] => [c]
  | c :: c2 :: rest =>
    if pyWs c && pyWs c2 then collapseWs (' ' :: rest)
    else c :: collapseWs (c2 :: rest)
termination_by l => l.length
decreasing_by
  all_goals simp_wf

/-- Python `str.strip()`: drop leading and trailing whitespace. -/
def stripWs (l : List Char) : List Char :=
  ((l.dropWhile pyWs).reverse.dropWhile pyWs).reverse

/-- Python `str.split()` (no separator): the maximal whitespace-free
chunks, with leading/trailing/repeated whitespace discarded. -/
def words : List Char → List (List Char)
  | [] => []
  | c :: rest =>
    if pyWs c then words rest
    else (c :: rest.takeWhile (fun d => !pyWs d)) :: words (rest.dropWhile (fun d => !pyWs d))
termination_by l => l.length
decreasing_by
  all_goals simp_wf
  all_goals
    first
    | omega
    | (have hdw : ∀ (p : Char → Bool) (m : List Char), (m.dropWhile p).length ≤ m.length := by
         intro p m
         induction m with
         | nil => simp
         | cons a t ih =>
           rw [List.dropWhile_cons]
           split
           · exact Nat.le_succ_of_le ih
           · simp
       have := hdw (fun d => !pyWs d) rest
       omega)

/-- Python `' '.join(ws)`. -/
def joinSpace : List (List Char) → List Char
  | [] => []
  | [w] => w
  | w :: ws => w ++ ' ' :: joinSpace ws

/-- `clean_text` from the source: strip HTML tags, strip URL-like
substrings, keep only `[a-zA-Z0-9 ]`, collapse whitespace runs, strip
the ends, then `' '.join(text.split())`. -/
def clean_text (l : List Char) : List Char :=
  joinSpace (words (stripWs (collapseWs (filterAllowed (removeUrls (removeTags l))))))

/-- Property predicate: every character is in `[a-zA-Z0-9 ]`. -/
def allAllowed (l : List Char) : Bool :=
  l.all isAllowed

/-- Property predicate: no two consecutive spaces. -/
def noDoubleSpace : List Char → Bool
  | a :: b :: r => if a = ' ' && b = ' ' then false else noDoubleSpace (b :: r)
  | _ => true

/-- A document indexed in the portfolio collection: the tech-stack text,
the portfolio link stored as metadata, and the generated unique id. -/
structure PEntry where
  techstack : String
  link : String
  entryId : String
deriving DecidableEq

/-- `Portfolio.data`: the fixed seed catalogue embedded in the source. -/
def portfolio_data : List (String × String) :=
  [("React, Node.js, MongoDB", "https://example.com/react-portfolio"),
   ("Angular,.NET, SQL Server", "https://example.com/angular-portfolio"),
   ("Vue.js, Ruby on Rails, PostgreSQL", "https://example.com/vue-portfolio"),
   ("Python, Django, MySQL", "https://example.com/python-portfolio"),
   ("Java, Spring Boot, Oracle", "https://example.com/java-portfolio"),
   ("Flutter, Firebase, GraphQL", "https://example.com/flutter-portfolio"),
   ("WordPress, PHP, MySQL", "https://example.com/wordpress-portfolio"),
   ("Magento, PHP, MySQL", "https://example.com/magento-portfolio"),
   ("React Native, Node.js, MongoDB", "https://example.com/react-native-portfolio"),
   ("iOS, Swift, Core Data", "https://example.com/ios-portfolio"),
   ("Android, Java, Room Persistence", "https://example.com/android-portfolio"),
   ("Kotlin, Android, Firebase", "https://example.com/kotlin-android-portfolio"),
   ("Android TV, Kotlin, Android NDK", "https://example.com/android-tv-portfolio"),
   ("iOS, Swift, ARKit", "https://example.com/ios-ar-portfolio"),
   ("Cross-platform, Xamarin, Azure", "https://example.com/xamarin-portfolio"),
   ("Backend, Kotlin, Spring Boot", "https://example.com/kotlin-backend-portfolio"),
   ("Frontend, TypeScript, Angular", "https://example.com/typescript-frontend-portfolio"),
   ("Full-stack, JavaScript, Express.js", "https://example.com/full-stack-js-portfolio"),
   ("Machine Learning, Python, TensorFlow", "https://example.com/ml-python-portfolio"),
   ("DevOps, Jenkins, Docker", "https://example.com/devops-portfolio")]

/-- Modelled from the spec: the chromadb collection is an external black
box ("documents + metadata + generated ids, queryable by text
similarity"); `count` is the number of stored entries. -/
def collection_count (col : List PEntry) : Nat :=
  col.length

/-- Modelled from the spec: `collection.add` indexes one document with
its metadata link and generated id. -/
def collection_add (col : List PEntry) (doc link idStr : String) : List PEntry :=
  col ++ [⟨doc, link, idStr⟩]

/-- Modelled from the spec: `collection.query(query_texts, n_results)`
returns the metadata links of the top `nResults` nearest entries,
nearest-first by the index's internal metric.  The metric is external, so
the nearest-first ordering is the `rank` parameter (a reordering of the
stored entries).  An empty store or an empty query yields no results
(the spec's fail-open contract). -/
def collection_query (rank : List String → List PEntry → List PEntry)
    (col : List PEntry) (queryTexts : List String) (nResults : Nat) : List String :=
  if queryTexts.isEmpty then []
  else ((rank queryTexts col).take nResults).map PEntry.link

/-- `Portfolio.load_portfolio`: if the collection holds nothing, add
every seed row (document = tech stack, metadata = link, one freshly
generated id per row, supplied by `idGen`); otherwise do nothing. -/
def load_portfolio (idGen : Nat → String) (col : List PEntry) : List PEntry :=
  if collection_count col = 0 then
    (portfolio_data.enum).foldl (fun c p => collection_add c p.2.1 p.2.2 (idGen p.1)) col
  else col

/-- `Portfolio.query_links`: query the collection with the skills as the
query texts, two results. -/
def query_links (rank : List String → List PEntry → List PEntry)
    (col : List PEntry) (skills : List String) : List String :=
  collection_query rank col skills 2

/-- JSON values as produced by parsing the model response (Python
`json.loads` via `JsonOutputParser`).  Numbers are modelled as integers;
floating-point payloads play no role in any claim. -/
inductive JVal where
  | null
  | bool (b : Bool)
  | num (n : Int)
  | str (s : String)
  | arr (elems : List JVal)
  | obj (fields : List (String × JVal))

/-- `isinstance(res, list)`: only a parsed JSON array is a Python list. -/
def JVal.isArr : JVal → Bool
  | .arr _ => true
  | _ => false

/-- Line 110 of the source: `res if isinstance(res, list) else [res]`. -/
def wrap_jobs (v : JVal) : List JVal :=
  match v with
  | .arr l => l
  | _ => [v]

/-- The extraction prompt of `Chain.extract_jobs` with `{page_data}`
substituted (the rendering `PromptTemplate` performs). -/
def extraction_prompt (page_data : String) : String :=
  "\n            ### SCRAPED TEXT FROM WEBSITE:\n            " ++ page_data ++
  "\n            ### INSTRUCTION:\n            The scraped text is from the career\x27s page of a website.\n            Your job is to extract the job postings and return them in JSON format containing the following keys: `role`, `experience`, `skills` and `description`.\n            Only return the valid JSON.\n            ### VALID JSON (NO PREAMBLE):\n            "

/-- `Chain.extract_jobs`: render the extraction prompt, invoke the model
once (`llm`, external), parse the response body (`parseJson`, the
external `JsonOutputParser.parse`, which fails exactly on invalid
JSON).  A parse failure is re-raised as `OutputParserException` with the
fixed message and propagates; a parsed array is returned as is; any
other parsed value is wrapped into a one-element list. -/
def extract_jobs (parseJson : String → Except String JVal)
    (llm : String → String) (cleaned_text : String) : Except String (List JVal) :=
  match parseJson (llm (extraction_prompt cleaned_text)) with
  | .error _ => .error "Context too big. Unable to parse jobs."
  | .ok v => .ok (wrap_jobs v)

/-- Python `repr`/`str` of a list of strings, used when `PromptTemplate`
formats the `{link_list}` placeholder with the link list. -/
def py_list_repr (links : List String) : String :=
  "[" ++ String.intercalate ", " (links.map (fun s => "\x27" ++ s ++ "\x27")) ++ "]"

/-- The email prompt of `Chain.write_mail` with `{job_description}` and
`{link_list}` substituted. -/
def email_prompt (job_description : String) (link_list : String) : String :=
  "\n            ### JOB DESCRIPTION:\n            " ++ job_description ++
  "\n\n            ### INSTRUCTION:\n            Your name is Aditya Singh, \"Prabhav Singh ka bhai\". Contact : adityasingh11400@gmail.com. You are an executive at **Prabhav_Streamlit_App Consultancy**, a cutting-edge consultancy providing tech solutions \n            tailored to diverse business needs. Our team of experts has successfully executed numerous projects in the following areas: \n            automation, process optimization, and tailored software solutions. \n\n            Your job is to write a personalized email to the client regarding their job posting, showcasing **Prabhav_Streamlit_App Consultancy**\x27s \n            capability to meet their needs by matching the following relevant portfolio examples: " ++ link_list ++
  ".\n            \n            Please highlight why we are the best match for their job posting and how our employees can fulfill their requirements. \n            Do not add a preamble.\n            ### EMAIL (NO PREAMBLE):\n            "

/-- `Chain.write_mail`: render the email prompt with the job record text
and the links, invoke the model once, return the response body
verbatim. -/
def write_mail (llm : String → String) (job_description : String)
    (links : List String) : String :=
  llm (email_prompt job_description (py_list_repr links))

/-- Python `dict.get(key, default)` on a parsed JSON object. -/
def dict_get (fields : List (String × JVal)) (key : String) (dflt : JVal) : JVal :=
  match fields.lookup key with
  | some v => v
  | none => dflt

/-- Modelled from the spec: the collection accepts one query text or a
sequence of query texts (`match(skills: sequence of text)`); the skill
value from the job record is passed through as the query texts. -/
def as_query_texts : JVal → List String
  | .str s => [s]
  | .arr l => l.filterMap (fun v => match v with | .str s => some s | _ => none)
  | _ => []

/-- One iteration of the per-job loop (source lines 151-153):
`skills = job.get('skills', [])`, `links = portfolio.query_links(skills)`,
`email = llm.write_mail(job, links)`.  `pyStr` is Python's `str` on the
job record (external rendering). -/
def process_job (rank : List String → List PEntry → List PEntry)
    (col : List PEntry) (llm : String → String) (pyStr : JVal → String)
    (fields : List (String × JVal)) : String :=
  let skills := dict_get fields "skills" (JVal.arr [])
  let links := query_links rank col (as_query_texts skills)
  write_mail llm (pyStr (JVal.obj fields)) links

/-- What the Streamlit boundary renders: `st.code` blocks for drafted
emails, or the single `st.error` box. -/
inductive StOutput where
  | code (s : String)
  | errorBox (s : String)
deriving DecidableEq

/-- The per-job loop of `create_streamlit_app` under its enclosing
`try`/`except` (source lines 150-156): each job is drafted in turn and
rendered with `st.code`; the first failure aborts the loop and renders
exactly one `st.error` box with the formatted message.  `step` is the
loop body (`query_links` + `write_mail`), which may fail for any
reason. -/
def run_job_loop (step : JVal → Except String String) : List JVal → List StOutput
  | [] => []
  | j :: rest =>
    match step j with
    | .ok email => .code email :: run_job_loop step rest
    | .error e => [.errorBox ("An Error Occurred: " ++ e)]

/-- The `ChatGroq` client constructed by `Chain.__init__`. -/
structure GroqClient where
  temperature : Nat
  groq_api_key : String
  model_name : String
deriving DecidableEq

/-- `Chain.__init__`: read `GROQ_API_KEY` from the process environment;
a missing key — and, by Python truthiness, an empty one — raises
immediately and no client is built; otherwise the `ChatGroq` client is
constructed. -/
def chain_init (env : String → Option String) : Except String GroqClient :=
  match env "GROQ_API_KEY" with
  | none => .error "API key is missing. Ensure it is set in the .env file or as an environment variable."
  | some k =>
    if k = "" then
      .error "API key is missing. Ensure it is set in the .env file or as an environment variable."
    else
      .ok { temperature := 0, groq_api_key := k, model_name := "llama-3.1-70b-versatile" }

/-- The `__main__` block: `Chain()` is constructed first; if it raises,
neither the portfolio nor the app is reached.  `persisted` is the state
of the on-disk collection that `Portfolio.__init__` opens. -/
def main_startup (env : String → Option String)
    (persisted : List PEntry) : Except String (GroqClient × List PEntry) :=
  match chain_init env with
  | .error e => .error e
  | .ok c => .ok (c, persisted)

/-- The concrete job record of the extraction fixture:
`{"role":"Engineer","experience":"3 yrs","skills":["Go"],"description":"build services"}`. -/
def engineer_record : JVal :=
  .obj [("role", .str "Engineer"), ("experience", .str "3 yrs"),
        ("skills", .arr [.str "Go"]), ("description", .str "build services")]


/-- C2: starting from an empty collection, calling `load_portfolio`
twice leaves exactly the 20 seed entries indexed: the second call is a
no-op because population is guarded by the count check, so no entry is
duplicated. -/
theorem load_portfolio_twice_no_duplication (idGen : Nat → String) :
    load_portfolio idGen (load_portfolio idGen []) = load_portfolio idGen [] ∧
    (load_portfolio idGen (load_portfolio idGen [])).length = 20 := by
  have hfold : ∀ (rows : List (Nat × (String × String))) (col : List PEntry),
      (rows.foldl (fun c p => collection_add c p.2.1 p.2.2 (idGen p.1)) col).length =
        col.length + rows.length := by
    intro rows
    induction rows with
    | nil => intro col; simp
    | cons r rs ih =>
      intro col
      rw [List.foldl_cons, ih]
      simp [collection_add]
      omega
  have hlen : (load_portfolio idGen []).length = 20 := by
    have hc : collection_count ([] : List PEntry) = 0 := rfl
    rw [load_portfolio, if_pos hc, hfold]
    simp [portfolio_data]
  have hsecond : load_portfolio idGen (load_portfolio idGen []) = load_portfolio idGen [] := by
    rw [load_portfolio, collection_count, hlen]
    simp
  exact ⟨hsecond, by rw [hsecond]; exact hlen⟩

/-- C3: when the model response parses as a single JSON object (not an
array), `extract_jobs` returns that record unchanged, wrapped in a
one-element sequence. -/
theorem extract_jobs_single_object (parseJson : String → Except String JVal)
    (llm : String → String) (t : String) (fields : List (String × JVal))
    (h : parseJson (llm (extraction_prompt t)) = .ok (.obj fields)) :
    extract_jobs parseJson llm t = .ok [.obj fields] := by
  simp [extract_jobs, h, wrap_jobs]

/-- Witness for C3 at the fixture record
`{"role":"Engineer","experience":"3 yrs","skills":["Go"],"description":"build services"}`. -/
theorem extract_jobs_single_object_check :
    extract_jobs (fun _ => Except.ok engineer_record) (fun _ => "model response")
        "cleaned page text" = Except.ok [engineer_record] :=
  extract_jobs_single_object (fun _ => Except.ok engineer_record) (fun _ => "model response")
    "cleaned page text"
    [("role", JVal.str "Engineer"), ("experience", JVal.str "3 yrs"),
     ("skills", JVal.arr [JVal.str "Go"]), ("description", JVal.str "build services")]
    rfl

/-- C4: when the model response body is not valid JSON, `extract_jobs`
fails with the `OutputParserException` message
"Context too big. Unable to parse jobs."; the error value carries no
partial job list and propagates (`extract_jobs` performs no retry). -/
theorem extract_jobs_parse_failure (parseJson : String → Except String JVal)
    (llm : String → String) (t : String) (e : String)
    (h : parseJson (llm (extraction_prompt t)) = .error e) :
    extract_jobs parseJson llm t = .error "Context too big. Unable to parse jobs." := by
  simp [extract_jobs, h]

/-- Witness for C4 on a non-JSON model response. -/
theorem extract_jobs_parse_failure_check :
    extract_jobs (fun _ => Except.error "Invalid json output")
        (fun _ => "I cannot produce JSON here") "cleaned page text" =
      Except.error "Context too big. Unable to parse jobs." :=
  extract_jobs_parse_failure (fun _ => Except.error "Invalid json output")
    (fun _ => "I cannot produce JSON here") "cleaned page text" "Invalid json output" rfl

/-- C10: whenever the model response parses successfully, `extract_jobs`
returns a list; any non-array value is wrapped into a one-element
list, so callers always receive a sequence. -/
theorem extract_jobs_always_list (parseJson : String → Except String JVal)
    (llm : String → String) (t : String) (v : JVal)
    (h : parseJson (llm (extraction_prompt t)) = .ok v) :
    (∃ jobs, extract_jobs parseJson llm t = .ok jobs) ∧
    (JVal.isArr v = false → extract_jobs parseJson llm t = .ok [v]) := by
  constructor
  · exact ⟨wrap_jobs v, by simp [extract_jobs, h]⟩
  · intro hv
    have hw : wrap_jobs v = [v] := by
      cases v
      all_goals first | rfl | simp [JVal.isArr] at hv
    simp [extract_jobs, h, hw]

/-- Witness for C10 on a response parsing to the bare number `3`. -/
theorem extract_jobs_always_list_check :
    extract_jobs (fun _ => Except.ok (JVal.num 3)) (fun _ => "3") "cleaned page text" =
      Except.ok [JVal.num 3] :=
  (extract_jobs_always_list (fun _ => Except.ok (JVal.num 3)) (fun _ => "3")
    "cleaned page text" (JVal.num 3) rfl).2 rfl

/-- C8: if `GROQ_API_KEY` is absent from the process environment,
`Chain.__init__` fails immediately with the configuration error and no
`ChatGroq` client is created; the `__main__` startup therefore stops
before any later stage. -/
theorem chain_init_missing_credential (env : String → Option String)
    (h : env "GROQ_API_KEY" = none) :
    chain_init env =
      .error "API key is missing. Ensure it is set in the .env file or as an environment variable." ∧
    ∀ persisted, main_startup env persisted =
      .error "API key is missing. Ensure it is set in the .env file or as an environment variable." := by
  have h1 : chain_init env =
      .error "API key is missing. Ensure it is set in the .env file or as an environment variable." := by
    simp [chain_init, h]
  exact ⟨h1, fun persisted => by simp [main_startup, h1]⟩

/-- Witness for C8 with an empty environment. -/
theorem chain_init_missing_credential_check :
    chain_init (fun _ => none) =
      Except.error "API key is missing. Ensure it is set in the .env file or as an environment variable." ∧
    main_startup (fun _ => none) [] =
      Except.error "API key is missing. Ensure it is set in the .env file or as an environment variable." := by
  have h := chain_init_missing_credential (fun _ => none) rfl
  exact ⟨h.1, h.2 []⟩

/-- C7: a failure while drafting the email for one job is not isolated:
the jobs before it are rendered, the remaining jobs are never
processed (the result does not depend on them), and exactly one error
box is rendered at the boundary. -/
theorem generation_failure_aborts_loop
    (step : JVal → Except String String) (emailOf : JVal → String)
    (pre : List JVal) (bad : JVal) (post : List JVal) (msg : String)
    (hpre : ∀ j ∈ pre, step j = .ok (emailOf j))
    (hbad : step bad = .error msg) :
    run_job_loop step (pre ++ bad :: post) =
      pre.map (fun j => StOutput.code (emailOf j)) ++
        [StOutput.errorBox ("An Error Occurred: " ++ msg)] := by
  induction pre with
  | nil => simp [run_job_loop, hbad]
  | cons j rest ih =>
    have hj : step j = .ok (emailOf j) := hpre j (by simp)
    have ih2 := ih (fun x hx => hpre x (by simp [hx]))
    simp only [List.cons_append, run_job_loop, hj, List.map_cons, List.append_eq]
    rw [ih2]

/-- Witness for C7: three jobs, the second fails; the first is rendered,
one error box follows, the third is never drafted. -/
theorem generation_failure_aborts_loop_check :
    run_job_loop
        (fun j => match j with
          | JVal.null => Except.error "rate limited"
          | _ => Except.ok "MAIL")
        [JVal.str "a", JVal.null, JVal.str "b"] =
      [StOutput.code "MAIL", StOutput.errorBox "An Error Occurred: rate limited"] := by
  have h := generation_failure_aborts_loop
      (fun j => match j with
        | JVal.null => Except.error "rate limited"
        | _ => Except.ok "MAIL")
      (fun _ => "MAIL") [JVal.str "a"] JVal.null [JVal.str "b"] "rate limited"
      (by intro j hj; simp at hj; subst hj; rfl) rfl
  simpa using h

/-- C9: a job record without the `skills` key is tolerated: the default
empty list is used, the similarity query is invoked with the empty
query list and returns the empty sequence, and `write_mail` still
renders its prompt with the empty link list and returns the model
response (no failure). -/
theorem missing_skills_fail_open
    (rank : List String → List PEntry → List PEntry) (col : List PEntry)
    (llm : String → String) (pyStr : JVal → String)
    (fields : List (String × JVal))
    (h : fields.lookup "skills" = none) :
    dict_get fields "skills" (JVal.arr []) = JVal.arr [] ∧
    as_query_texts (dict_get fields "skills" (JVal.arr [])) = [] ∧
    query_links rank col (as_query_texts (dict_get fields "skills" (JVal.arr []))) = [] ∧
    process_job rank col llm pyStr fields =
      llm (email_prompt (pyStr (JVal.obj fields)) (py_list_repr [])) := by
  have h1 : dict_get fields "skills" (JVal.arr []) = JVal.arr [] := by
    simp [dict_get, h]
  have h2 : as_query_texts (JVal.arr []) = [] := rfl
  have h3 : query_links rank col [] = [] := by
    simp [query_links, collection_query]
  refine ⟨h1, by rw [h1]; exact h2, by rw [h1]; rw [h2]; exact h3, ?_⟩
  simp only [process_job, h1, h2, h3, write_mail]

/-- Witness for C9 on a record holding only a `role` key. -/
theorem missing_skills_fail_open_check :
    process_job (fun _ c => c) [] (fun p => p) (fun _ => "JOBREC")
        [("role", JVal.str "Engineer")] =
      email_prompt "JOBREC" (py_list_repr []) ∧
    query_links (fun _ c => c) []
        (as_query_texts (dict_get [("role", JVal.str "Engineer")] "skills" (JVal.arr []))) = [] := by
  have h := missing_skills_fail_open (fun _ c => c) [] (fun p => p) (fun _ => "JOBREC")
      [("role", JVal.str "Engineer")] rfl
  exact ⟨h.2.2.2, h.2.2.1⟩

/-- C1: for every skill list, `query_links` returns at most 2 results,
and it returns the empty sequence rather than failing whenever the
backing collection holds zero entries.  `rank` is the index internal
nearest-first ordering, a reordering of the stored entries. -/
theorem query_links_at_most_two
    (rank : List String → List PEntry → List PEntry) (col : List PEntry)
    (skills : List String)
    (hrank : ∀ q c, List.Perm (rank q c) c) :
    (query_links rank col skills).length ≤ 2 ∧
    (col = [] → query_links rank col skills = []) := by
  constructor
  · by_cases hs : skills.isEmpty
    · simp [query_links, collection_query, hs]
    · simp only [query_links, collection_query, hs, if_neg, Bool.false_eq_true,
        not_false_eq_true, List.length_map]
      have := List.length_take 2 (rank skills col)
      omega
  · intro hcol
    subst hcol
    have hnil : rank skills [] = [] := List.Perm.eq_nil (hrank skills [])
    simp [query_links, collection_query, hnil]

/-- Witness for C1: a singleton store yields at most two links, the
empty store yields none. -/
theorem query_links_at_most_two_check :
    (query_links (fun _ c => c)
        [⟨"Python, Django, MySQL", "https://example.com/python-portfolio", "id0"⟩]
        ["Python"]).length ≤ 2 ∧
    query_links (fun _ c => c) [] ["Python"] = [] := by
  have h1 := query_links_at_most_two (fun _ c => c)
      [⟨"Python, Django, MySQL", "https://example.com/python-portfolio", "id0"⟩]
      ["Python"] (fun _ c => List.Perm.refl c)
  have h2 := query_links_at_most_two (fun _ c => c) [] ["Python"]
      (fun _ c => List.Perm.refl c)
  exact ⟨h1.1, h2.2 rfl⟩

theorem allowed_ws_is_space (c : Char) (h1 : isAllowed c = true) (h2 : pyWs c = true) :
    c = ' ' := by
  simp only [pyWs, Bool.or_eq_true, decide_eq_true_eq] at h2
  rcases h2 with ((((h | h) | h) | h) | h) | h
  · exact h
  all_goals subst h
  all_goals exact absurd h1 (by decide)

theorem allowed_ne_special (c : Char) (h : isAllowed c = true) :
    ¬(c = '<') ∧ ¬(c = ':') := by
  constructor
  · rintro rfl
    exact absurd h (by decide)
  · rintro rfl
    exact absurd h (by decide)

theorem space_not_in_nonWs (c : Char) (h : (!pyWs c) = true) : ¬(c = ' ') := by
  rintro rfl
  simp [pyWs] at h

theorem takeWhile_append_all (p : Char → Bool) :
    ∀ (w m : List Char), w.all p = true → (w ++ m).takeWhile p = w ++ m.takeWhile p := by
  intro w
  induction w with
  | nil => intro m _; simp
  | cons a t ih =>
    intro m hall
    have hpair : p a = true ∧ t.all p = true := by simpa using hall
    rw [List.cons_append, List.takeWhile_cons, if_pos hpair.1, ih m hpair.2, List.cons_append]

theorem dropWhile_append_all (p : Char → Bool) :
    ∀ (w m : List Char), w.all p = true → (w ++ m).dropWhile p = m.dropWhile p := by
  intro w
  induction w with
  | nil => intro m _; simp
  | cons a t ih =>
    intro m hall
    have h1 : p a = true := (by simpa using hall : p a = true ∧ t.all p = true).1
    have h2 : t.all p = true := (by simpa using hall : p a = true ∧ t.all p = true).2
    rw [List.cons_append, List.dropWhile_cons, if_pos h1, ih m h2]

theorem takeWhile_eq_self_of_all (p : Char → Bool) (w : List Char) (h : w.all p = true) :
    w.takeWhile p = w := by
  have := takeWhile_append_all p w [] h
  simpa using this

theorem dropWhile_eq_nil_of_all (p : Char → Bool) (w : List Char) (h : w.all p = true) :
    w.dropWhile p = [] := by
  have := dropWhile_append_all p w [] h
  simpa using this

theorem head_not_space (w : List Char) (hall : w.all (fun c => !pyWs c) = true) :
    w.head? ≠ some ' ' := by
  cases w with
  | nil => simp
  | cons a t =>
    have h1 : (!pyWs a) = true := (by simpa using hall :
      (!pyWs a) = true ∧ t.all (fun c => !pyWs c) = true).1
    simp only [List.head?_cons, ne_eq, Option.some.injEq]
    exact space_not_in_nonWs a h1

theorem head_append_left (l m : List Char) (h : l ≠ []) : (l ++ m).head? = l.head? := by
  cases l with
  | nil => exact absurd rfl h
  | cons a t => rfl

theorem noDoubleSpace_cons_of (a : Char) (m : List Char)
    (hm : noDoubleSpace m = true) (ha : a = ' ' → m.head? ≠ some ' ') :
    noDoubleSpace (a :: m) = true := by
  cases m with
  | nil => rfl
  | cons b r =>
    have hcond : ¬(a = ' ' ∧ b = ' ') := by
      rintro ⟨h1, h2⟩
      exact ha h1 (by simp [h2])
    show (if a = ' ' && b = ' ' then false else noDoubleSpace (b :: r)) = true
    rw [if_neg (by simpa using hcond)]
    exact hm

theorem noDoubleSpace_tail (a : Char) (m : List Char)
    (h : noDoubleSpace (a :: m) = true) : noDoubleSpace m = true := by
  cases m with
  | nil => rfl
  | cons b r =>
    have h2 : (if a = ' ' && b = ' ' then false else noDoubleSpace (b :: r)) = true := h
    by_cases hc : (a = ' ' && b = ' ') = true
    · rw [if_pos hc] at h2
      exact absurd h2 (by simp)
    · rwa [if_neg hc] at h2

theorem noDoubleSpace_append (w m : List Char)
    (hw : w.all (fun c => !pyWs c) = true) (hm : noDoubleSpace m = true) :
    noDoubleSpace (w ++ m) = true := by
  induction w with
  | nil => simpa using hm
  | cons a t ih =>
    have hpair : (!pyWs a) = true ∧ t.all (fun c => !pyWs c) = true := by simpa using hw
    rw [List.cons_append]
    refine noDoubleSpace_cons_of a (t ++ m) (ih hpair.2) ?_
    intro hsp
    exact absurd hsp (space_not_in_nonWs a hpair.1)

theorem noDoubleSpace_of_all_nonWs (w : List Char)
    (hw : w.all (fun c => !pyWs c) = true) : noDoubleSpace w = true := by
  have := noDoubleSpace_append w [] hw rfl
  simpa using this

theorem words_good (l : List Char) :
    ∀ w ∈ words l, w ≠ [] ∧ w.all (fun c => !pyWs c) = true := by
  induction l using words.induct with
  | case1 =>
    intro w hw
    simp [words] at hw
  | case2 c rest hc ih =>
    intro w hw
    rw [words, if_pos hc] at hw
    exact ih w hw
  | case3 c rest hc ih =>
    intro w hw
    rw [words, if_neg hc] at hw
    rcases List.mem_cons.mp hw with h1 | h1
    · subst h1
      refine ⟨by simp, ?_⟩
      have h2 : (!pyWs c) = true := by simpa using hc
      have h3 : (rest.takeWhile (fun d => !pyWs d)).all (fun c => !pyWs c) = true := by
        rw [List.all_eq_true]
        intro x hx
        simpa using List.mem_takeWhile_imp hx
      simp [h2, h3]
    · exact ih w h1

theorem words_chars (l : List Char) :
    ∀ w ∈ words l, ∀ c ∈ w, c ∈ l := by
  induction l using words.induct with
  | case1 =>
    intro w hw
    simp [words] at hw
  | case2 c rest hc ih =>
    intro w hw d hd
    rw [words, if_pos hc] at hw
    exact List.mem_cons_of_mem c (ih w hw d hd)
  | case3 c rest hc ih =>
    intro w hw d hd
    rw [words, if_neg hc] at hw
    rcases List.mem_cons.mp hw with h1 | h1
    · subst h1
      rcases List.mem_cons.mp hd with h2 | h2
      · simp [h2]
      · exact List.mem_cons_of_mem c ((List.takeWhile_sublist _).subset h2)
    · exact List.mem_cons_of_mem c ((List.dropWhile_sublist _).subset (ih w h1 d hd))

theorem words_all_nonWs (w : List Char) (hne : w ≠ [])
    (hall : w.all (fun c => !pyWs c) = true) : words w = [w] := by
  cases w with
  | nil => exact absurd rfl hne
  | cons c t =>
    have hpair : (!pyWs c) = true ∧ t.all (fun c => !pyWs c) = true := by simpa using hall
    have hc : ¬(pyWs c = true) := by simpa using hpair.1
    rw [words, if_neg hc, takeWhile_eq_self_of_all _ t hpair.2,
      dropWhile_eq_nil_of_all _ t hpair.2]
    simp [words]

theorem words_append_sep (w t : List Char) (hne : w ≠ [])
    (hall : w.all (fun c => !pyWs c) = true) :
    words (w ++ ' ' :: t) = w :: words t := by
  cases w with
  | nil => exact absurd rfl hne
  | cons c w2 =>
    have hpair : (!pyWs c) = true ∧ w2.all (fun c => !pyWs c) = true := by simpa using hall
    have hc : ¬(pyWs c = true) := by simpa using hpair.1
    rw [List.cons_append, words, if_neg hc]
    have ht : (w2 ++ ' ' :: t).takeWhile (fun d => !pyWs d) = w2 := by
      rw [takeWhile_append_all _ w2 (' ' :: t) hpair.2, List.takeWhile_cons,
        if_neg (by decide)]
      simp
    have hd : (w2 ++ ' ' :: t).dropWhile (fun d => !pyWs d) = ' ' :: t := by
      rw [dropWhile_append_all _ w2 (' ' :: t) hpair.2, List.dropWhile_cons,
        if_neg (by decide)]
    rw [ht, hd]
    congr 1
    rw [words, if_pos (by decide)]

theorem joinSpace_cons_cons (w v : List Char) (ws : List (List Char)) :
    joinSpace (w :: v :: ws) = w ++ ' ' :: joinSpace (v :: ws) := rfl

theorem joinSpace_head_of_ne (w : List Char) (ws : List (List Char)) (hw : w ≠ []) :
    (joinSpace (w :: ws)).head? = w.head? := by
  cases ws with
  | nil => rfl
  | cons v ws2 =>
    rw [joinSpace_cons_cons]
    exact head_append_left w _ hw

theorem joinSpace_ne_nil (w : List Char) (ws : List (List Char)) (hw : w ≠ []) :
    joinSpace (w :: ws) ≠ [] := by
  cases ws with
  | nil => exact hw
  | cons v ws2 =>
    rw [joinSpace_cons_cons]
    simp

theorem mem_joinSpace : ∀ (ws : List (List Char)) (c : Char), c ∈ joinSpace ws →
    (∃ w ∈ ws, c ∈ w) ∨ c = ' ' := by
  intro ws
  induction ws with
  | nil =>
    intro c h
    simp [joinSpace] at h
  | cons w ws2 ih =>
    intro c h
    cases ws2 with
    | nil =>
      left
      exact ⟨w, by simp, by simpa [joinSpace] using h⟩
    | cons v ws3 =>
      rw [joinSpace_cons_cons] at h
      rcases List.mem_append.mp h with h1 | h1
      · left; exact ⟨w, by simp, h1⟩
      · rcases List.mem_cons.mp h1 with h2 | h2
        · right; exact h2
        · rcases ih c h2 with ⟨u, hu, hcu⟩ | h3
          · left; exact ⟨u, List.mem_cons_of_mem w hu, hcu⟩
          · right; exact h3

theorem noDoubleSpace_joinSpace : ∀ (ws : List (List Char)),
    (∀ w ∈ ws, w ≠ [] ∧ w.all (fun c => !pyWs c) = true) →
    noDoubleSpace (joinSpace ws) = true := by
  intro ws
  induction ws with
  | nil => intro _; rfl
  | cons w ws2 ih =>
    intro h
    have hw := h w (by simp)
    cases ws2 with
    | nil => exact noDoubleSpace_of_all_nonWs w hw.2
    | cons v ws3 =>
      rw [joinSpace_cons_cons]
      refine noDoubleSpace_append w _ hw.2 ?_
      have hv := h v (by simp)
      refine noDoubleSpace_cons_of ' ' _ (ih (fun u hu => h u (List.mem_cons_of_mem w hu))) ?_
      intro _
      rw [joinSpace_head_of_ne v ws3 hv.1]
      exact head_not_space v hv.2

theorem joinSpace_head_not_space (ws : List (List Char))
    (h : ∀ w ∈ ws, w ≠ [] ∧ w.all (fun c => !pyWs c) = true) :
    (joinSpace ws).head? ≠ some ' ' := by
  cases ws with
  | nil => simp [joinSpace]
  | cons w ws2 =>
    have hw := h w (by simp)
    rw [joinSpace_head_of_ne w ws2 hw.1]
    exact head_not_space w hw.2

theorem joinSpace_last_not_space : ∀ (ws : List (List Char)),
    (∀ w ∈ ws, w ≠ [] ∧ w.all (fun c => !pyWs c) = true) →
    (joinSpace ws).reverse.head? ≠ some ' ' := by
  intro ws
  induction ws with
  | nil => intro _; simp [joinSpace]
  | cons w ws2 ih =>
    intro h
    have hw := h w (by simp)
    cases ws2 with
    | nil =>
      refine head_not_space (joinSpace [w]).reverse ?_
      rw [List.all_reverse]
      exact hw.2
    | cons v ws3 =>
      have hv := h v (by simp)
      have hj : joinSpace (v :: ws3) ≠ [] := joinSpace_ne_nil v ws3 hv.1
      rw [joinSpace_cons_cons, List.reverse_append, List.reverse_cons, List.append_assoc,
        head_append_left _ _ (by simpa [List.reverse_eq_nil_iff] using hj)]
      exact ih (fun u hu => h u (List.mem_cons_of_mem w hu))

theorem words_joinSpace : ∀ (ws : List (List Char)),
    (∀ w ∈ ws, w ≠ [] ∧ w.all (fun c => !pyWs c) = true) →
    words (joinSpace ws) = ws := by
  intro ws
  induction ws with
  | nil => intro _; simp [joinSpace, words]
  | cons w ws2 ih =>
    intro h
    have hw := h w (by simp)
    cases ws2 with
    | nil => exact words_all_nonWs w hw.1 hw.2
    | cons v ws3 =>
      rw [joinSpace_cons_cons, words_append_sep w _ hw.1 hw.2]
      congr 1
      exact ih (fun u hu => h u (List.mem_cons_of_mem w hu))

theorem mem_collapseWs : ∀ (m : List Char) (c : Char), c ∈ collapseWs m → c ∈ m ∨ c = ' ' := by
  intro m
  induction m using collapseWs.induct with
  | case1 =>
    intro c hc
    simp [collapseWs] at hc
  | case2 d =>
    intro c hc
    simp [collapseWs] at hc
    left
    simp [hc]
  | case3 d d2 rest hws ih =>
    intro c hc
    rw [collapseWs, if_pos hws] at hc
    rcases ih c hc with h1 | h1
    · rcases List.mem_cons.mp h1 with h2 | h2
      · right; exact h2
      · left; exact List.mem_cons_of_mem d (List.mem_cons_of_mem d2 h2)
    · right; exact h1
  | case4 d d2 rest hws ih =>
    intro c hc
    rw [collapseWs, if_neg hws] at hc
    rcases List.mem_cons.mp hc with h1 | h1
    · left; simp [h1]
    · rcases ih c h1 with h2 | h2
      · left; exact List.mem_cons_of_mem d h2
      · right; exact h2

theorem collapseWs_id : ∀ (m : List Char), allAllowed m = true → noDoubleSpace m = true →
    collapseWs m = m := by
  intro m
  induction m using collapseWs.induct with
  | case1 => intro _ _; simp [collapseWs]
  | case2 d => intro _ _; simp [collapseWs]
  | case3 d d2 rest hws ih =>
    intro hall hnd
    exfalso
    have hp : pyWs d = true ∧ pyWs d2 = true := by simpa using hws
    have ha : isAllowed d = true ∧ isAllowed d2 = true := by
      have := by simpa [allAllowed] using hall
      exact ⟨this.1, this.2.1⟩
    have hd : d = ' ' := allowed_ws_is_space d ha.1 hp.1
    have hd2 : d2 = ' ' := allowed_ws_is_space d2 ha.2 hp.2
    subst hd
    subst hd2
    simp [noDoubleSpace] at hnd
  | case4 d d2 rest hws ih =>
    intro hall hnd
    rw [collapseWs, if_neg hws]
    congr 1
    refine ih ?_ (noDoubleSpace_tail d (d2 :: rest) hnd)
    have h2 := by simpa [allAllowed] using hall
    rw [allAllowed, List.all_eq_true]
    intro x hx
    rcases List.mem_cons.mp hx with h3 | h3
    · rw [h3]; exact h2.2.1
    · exact h2.2.2 x h3

theorem mem_stripWs (m : List Char) (c : Char) (h : c ∈ stripWs m) : c ∈ m := by
  have h1 : c ∈ (m.dropWhile pyWs).reverse.dropWhile pyWs := List.mem_reverse.mp h
  have h2 : c ∈ (m.dropWhile pyWs).reverse := (List.dropWhile_sublist pyWs).subset h1
  have h3 : c ∈ m.dropWhile pyWs := List.mem_reverse.mp h2
  exact (List.dropWhile_sublist pyWs).subset h3

theorem stripWs_id (m : List Char) (hall : allAllowed m = true)
    (hh : m.head? ≠ some ' ') (hl : m.reverse.head? ≠ some ' ') : stripWs m = m := by
  have hdrop : ∀ (u : List Char), allAllowed u = true → u.head? ≠ some ' ' →
      u.dropWhile pyWs = u := by
    intro u hu huh
    cases u with
    | nil => rfl
    | cons a t =>
      rw [List.dropWhile_cons, if_neg]
      intro hws
      have hu2 := by simpa [allAllowed] using hu
      exact huh (by simp [allowed_ws_is_space a hu2.1 hws])
  have h1 : m.dropWhile pyWs = m := hdrop m hall hh
  have h2 : m.reverse.dropWhile pyWs = m.reverse := by
    refine hdrop m.reverse ?_ hl
    rw [allAllowed, List.all_reverse]
    exact hall
  rw [stripWs, h1, h2, List.reverse_reverse]

theorem removeTags_id : ∀ (m : List Char), (∀ c ∈ m, ¬(c = '<')) → removeTags m = m := by
  intro m
  induction m with
  | nil => intro _; simp [removeTags]
  | cons a t ih =>
    intro h
    have ha : ¬(a = '<') := h a (by simp)
    rw [removeTags, if_neg ha]
    congr 1
    exact ih (fun c hc => h c (List.mem_cons_of_mem a hc))

theorem urlSuffix_none_of_no_colon (l : List Char) (h : ∀ c ∈ l, ¬(c = ':')) :
    urlSuffix l = none := by
  have h8 : ¬(l.take 8 = ['h', 't', 't', 'p', 's', ':', '/', '/']) := by
    intro he
    refine h ':' ?_ rfl
    rw [← List.take_append_drop 8 l]
    refine List.mem_append.mpr (Or.inl ?_)
    rw [he]
    simp
  have h7 : ¬(l.take 7 = ['h', 't', 't', 'p', ':', '/', '/']) := by
    intro he
    refine h ':' ?_ rfl
    rw [← List.take_append_drop 7 l]
    refine List.mem_append.mpr (Or.inl ?_)
    rw [he]
    simp
  rw [urlSuffix, if_neg h8, if_neg h7]

theorem removeUrls_cons_no_colon (a : Char) (t : List Char)
    (h : ∀ c ∈ a :: t, ¬(c = ':')) :
    removeUrls (a :: t) = a :: removeUrls t := by
  have hu : urlSuffix (a :: t) = none := urlSuffix_none_of_no_colon (a :: t) h
  simp only [removeUrls]
  split
  · next r2 heq =>
    exfalso
    rw [hu] at heq
    exact Option.noConfusion heq
  · rfl

theorem removeUrls_id : ∀ (m : List Char), (∀ c ∈ m, ¬(c = ':')) → removeUrls m = m := by
  intro m
  induction m with
  | nil => intro _; simp [removeUrls]
  | cons a t ih =>
    intro h
    rw [removeUrls_cons_no_colon a t h]
    congr 1
    exact ih (fun c hc => h c (List.mem_cons_of_mem a hc))

theorem clean_shape (l : List Char) :
    allAllowed (clean_text l) = true ∧ noDoubleSpace (clean_text l) = true ∧
    (clean_text l).head? ≠ some ' ' ∧ (clean_text l).reverse.head? ≠ some ' ' := by
  have hz : ∀ c ∈ stripWs (collapseWs (filterAllowed (removeUrls (removeTags l)))),
      isAllowed c = true := by
    intro c hc
    have h1 : c ∈ collapseWs (filterAllowed (removeUrls (removeTags l))) :=
      mem_stripWs _ c hc
    rcases mem_collapseWs _ c h1 with h2 | h2
    · exact (List.mem_filter.mp h2).2
    · rw [h2]
      decide
  have hgood := words_good (stripWs (collapseWs (filterAllowed (removeUrls (removeTags l)))))
  refine ⟨?_, ?_, ?_, ?_⟩
  · rw [allAllowed, List.all_eq_true]
    intro c hc
    rcases mem_joinSpace _ c hc with ⟨w, hw, hcw⟩ | hcs
    · exact hz c (words_chars _ w hw c hcw)
    · rw [hcs]
      decide
  · exact noDoubleSpace_joinSpace _ hgood
  · exact joinSpace_head_not_space _ hgood
  · exact joinSpace_last_not_space _ hgood

/-- C6: for every input, `clean_text` produces only characters from
`[A-Za-z0-9 ]`, with no run of two or more consecutive spaces, trimmed
at both ends (it neither starts nor ends with a space), and the empty
input yields the empty output with no failure. -/
theorem clean_text_output_wellformed (l : List Char) :
    allAllowed (clean_text l) = true ∧
    noDoubleSpace (clean_text l) = true ∧
    (clean_text l).head? ≠ some ' ' ∧
    (clean_text l).reverse.head? ≠ some ' ' ∧
    clean_text [] = [] := by
  obtain ⟨h1, h2, h3, h4⟩ := clean_shape l
  refine ⟨h1, h2, h3, h4, ?_⟩
  simp [clean_text, removeTags, removeUrls, filterAllowed, collapseWs, stripWs, words,
    joinSpace]

/-- C5: `clean_text` is idempotent: cleaning an already-cleaned text
changes nothing. -/
theorem clean_text_idempotent (l : List Char) :
    clean_text (clean_text l) = clean_text l := by
  obtain ⟨hA, hN, hH, hL⟩ := clean_shape l
  have hAll : ∀ c ∈ clean_text l, isAllowed c = true := by
    intro c hc
    exact List.all_eq_true.mp hA c hc
  have hTags : removeTags (clean_text l) = clean_text l :=
    removeTags_id _ (fun c hc => (allowed_ne_special c (hAll c hc)).1)
  have hUrls : removeUrls (clean_text l) = clean_text l := by
    refine removeUrls_id _ (fun c hc => (allowed_ne_special c (hAll c hc)).2)
  have hFilt : filterAllowed (clean_text l) = clean_text l :=
    List.filter_eq_self.mpr hAll
  have hColl : collapseWs (clean_text l) = clean_text l := collapseWs_id _ hA hN
  have hStrip : stripWs (clean_text l) = clean_text l := stripWs_id _ hA hH hL
  have hgood := words_good (stripWs (collapseWs (filterAllowed (removeUrls (removeTags l)))))
  have hWords : words (clean_text l) =
      words (stripWs (collapseWs (filterAllowed (removeUrls (removeTags l))))) :=
    words_joinSpace _ hgood
  calc clean_text (clean_text l)
      = joinSpace (words (stripWs (collapseWs (filterAllowed
          (removeUrls (removeTags (clean_text l))))))) := rfl
    _ = joinSpace (words (clean_text l)) := by
          rw [hTags, hUrls, hFilt, hColl, hStrip]
    _ = joinSpace (words (stripWs (collapseWs (filterAllowed
          (removeUrls (removeTags l)))))) := by rw [hWords]
    _ = clean_text l := rfl
